import Mathlib

/-!
Verification of the VoltAI indexing and retrieval engine.

The definitions below are a shallow embedding of the core of `src/main.rs`:
tokenization (`tokenize`), document-frequency vocabulary construction
(`dfList`, `termsOf`), TF vector encoding with L2 normalization (`rawVec`,
`l2normalize`, `encodeVec`), the persisted JSON index format (`Json`,
`encodeIndex`, `decodeIndex`), and the query-time retrieval path of
`query_with_ollama` (`qVec`, `is_general_query`, `selected_docs`,
`retrieve`).  Floating-point (`f32`) weights are modelled by real numbers;
JSON numbers, which are decimal literals in the persisted file, are
modelled by rationals.
-/

namespace VoltAI

/-- The characters matched by the word regex `[a-zA-Z0-9']` built at
src/main.rs line 18 (`Char.ofNat 39` is the apostrophe). -/
def isWordChar (c : Char) : Bool :=
  c.isAlpha || c.isDigit || c = Char.ofNat 39

/-- Accumulator-style scan producing the maximal runs of word characters,
modelling `WORD_RE.find_iter` over the character sequence.  The second
argument holds the current (reversed) run. -/
def tokenizeAux : List Char → List Char → List (List Char)
  | [], acc => if acc.isEmpty then [] else [acc.reverse]
  | c :: cs, acc =>
    if isWordChar c then tokenizeAux cs (c :: acc)
    else if acc.isEmpty then tokenizeAux cs [] else acc.reverse :: tokenizeAux cs []

/-- `tokenize` (src/main.rs lines 78-83): every maximal word-character run,
lowercased. -/
def tokenize (s : String) : List String :=
  (tokenizeAux s.toList []).map (fun w => String.mk (w.map Char.toLower))

/-- `cosine_sim` (src/main.rs lines 85-87): `a.iter().zip(b.iter()).map(|(x, y)| x * y).sum()`.
`zip` truncates to the shorter operand, so the function is total on vectors of
differing lengths. -/
def cosine_sim {α : Type} [NonUnitalNonAssocSemiring α] (a b : List α) : α :=
  ((a.zip b).map (fun p => p.1 * p.2)).sum

/-- Last path component; models `Path::file_name` combined with
`to_string_lossy`/`unwrap_or_default` as used at src/main.rs line 119. -/
def fileName (p : String) : String :=
  (p.splitOn "/").getLastD ""

/-- One document entry of the index (struct `Doc`, src/main.rs lines 48-53). -/
structure Doc where
  id : String
  path : String
  text : String
deriving DecidableEq, Repr

/-- The index aggregate (struct `Index`, src/main.rs lines 55-60), parametric
in the number type used for the stored weights. -/
structure IndexM (α : Type) where
  docs : List Doc
  terms : List String
  vectors : List (List α)
deriving DecidableEq, Repr

/-- Building one `Doc` from a file path and the outcome of
`read_file_content` (src/main.rs lines 117-126): an extraction failure is
replaced by the empty string by `unwrap_or_else(|_| String::new())`. -/
def mkDoc (entry : String × Except String String) : Doc :=
  { id := "doc-" ++ fileName entry.1
    path := entry.1
    text := match entry.2 with
            | Except.ok s => s
            | Except.error _ => "" }

/-- The document list built from the sorted file list (src/main.rs lines
115-127).  The parallel `par_iter().map(..).collect()` preserves input
order, so the build is an order-preserving map. -/
def docsOf (entries : List (String × Except String String)) : List Doc :=
  entries.map mkDoc

/-- Per-document token lists (`docs_tokens`, src/main.rs lines 132-143). -/
def docsTokens (docs : List Doc) : List (List String) :=
  docs.map (fun d => tokenize d.text)

/-- Distinct terms of one document in order of first occurrence, modelling
the `HashSet::insert` guard of the document-frequency loop
(src/main.rs lines 136-141). -/
def distinctFirstSeen (toks : List String) : List String :=
  toks.foldl (fun acc t => if t ∈ acc then acc else acc ++ [t]) []

/-- Increment the document-frequency entry of `t`, inserting it with count 1
when absent (`*df.entry(t).or_insert(0) += 1`, src/main.rs line 139).
The association list records the map contents in insertion (first-seen)
order. -/
def bump (df : List (String × ℕ)) (t : String) : List (String × ℕ) :=
  if df.any (fun p => p.1 == t) then
    df.map (fun p => if p.1 == t then (p.1, p.2 + 1) else p)
  else df ++ [(t, 1)]

/-- The contents of the document-frequency map `df` after the loop at
src/main.rs lines 134-143, listed in first-seen order.  The Rust `HashMap`
holds exactly these pairs but yields them in an unspecified iteration
order; that order is kept explicit as a parameter elsewhere. -/
def dfList (docs_tokens : List (List String)) : List (String × ℕ) :=
  docs_tokens.foldl (fun df toks => (distinctFirstSeen toks).foldl bump df) []

/-- Stable descending sort by a key, realizing `v.sort_by(|a, b| b.1.cmp(&a.1))`
(src/main.rs line 147): Rust `sort_by` is a stable sort, and a stable sort
by a total key comparison is extensionally unique, so the insertion sort
below computes the same list. -/
def sortDescBy {α β : Type} [LinearOrder β] (key : α → β) (l : List α) : List α :=
  List.insertionSort (fun a b => key b ≤ key a) l

/-- The vocabulary derived from the document-frequency pairs
(src/main.rs lines 145-149): sort by descending count, keep the terms. -/
def termsOf (pairs : List (String × ℕ)) : List String :=
  (sortDescBy Prod.snd pairs).map Prod.fst

/-- `term_index` (src/main.rs line 151): the map built by
`terms.iter().enumerate().map(|(i, t)| (t, i)).collect()`.  Collecting into
a `HashMap` overwrites on duplicate keys, so a duplicated term is mapped to
its last index; the fold below has the same overwrite semantics. -/
def term_index (terms : List String) (t : String) : Option ℕ :=
  (List.range terms.length).foldl
    (fun acc i => if terms[i]? = some t then some i else acc) none

/-- The in-document term-frequency map `tf` (src/main.rs lines 156-161) as a
total function from vocabulary positions to counts: every token found in
`term_index` increments its position, all other positions stay 0. -/
def tfCount (terms : List String) (toks : List String) : ℕ → ℕ :=
  toks.foldl
    (fun m t =>
      match term_index terms t with
      | some i => Function.update m i (m i + 1)
      | none => m)
    (fun _ => 0)

/-- The pre-normalization vector (src/main.rs lines 162-167): a vector of
zeros of vocabulary length, with position `i` set to `1 + log2(count)` for
every entry `(i, count)` of the `tf` map.  The `tf` map holds exactly the
positions with count at least 1, so position `i` equals 0 when its count
is 0 and `1 + log2(count)` otherwise. -/
noncomputable def rawVec (terms : List String) (toks : List String) : List ℝ :=
  (List.range terms.length).map (fun i =>
    if tfCount terms toks i = 0 then 0
    else 1 + Real.logb 2 (tfCount terms toks i))

/-- `v.iter().map(|x| x * x).sum()` (src/main.rs line 174). -/
def sumSq (v : List ℝ) : ℝ :=
  (v.map (fun x => x * x)).sum

/-- The normalization divisor `sum.sqrt().max(1e-9)` (src/main.rs line 174). -/
noncomputable def normDivisor (v : List ℝ) : ℝ :=
  max (Real.sqrt (sumSq v)) 1e-9

/-- The Euclidean norm of a vector. -/
noncomputable def euclNorm (v : List ℝ) : ℝ :=
  Real.sqrt (sumSq v)

/-- The normalization loop (src/main.rs lines 171-180): every component is
divided by the floored norm of the vector. -/
noncomputable def l2normalize (v : List ℝ) : List ℝ :=
  v.map (fun x => x / normDivisor v)

/-- The complete per-document encoder of `index_dir`: raw counts, sublinear
transform, then L2 normalization (src/main.rs lines 153-180). -/
noncomputable def encodeVec (terms : List String) (toks : List String) : List ℝ :=
  l2normalize (rawVec terms toks)

/-- One full index build (`index_dir`, src/main.rs lines 89-186) starting
from the sorted file list together with each file's extraction outcome.
`dfOrder` is the order in which the `HashMap` `df` yields its pairs at
line 146; the Rust standard `HashMap` leaves that order unspecified (it is
randomized per process), so it is an explicit parameter here.  A run of the
program uses some permutation of `dfList` of the corpus. -/
noncomputable def buildIndex (entries : List (String × Except String String))
    (dfOrder : List (String × ℕ)) : IndexM ℝ :=
  let docs := docsOf entries
  let terms := termsOf dfOrder
  { docs := docs
    terms := terms
    vectors := (docsTokens docs).map (encodeVec terms) }

/-- The index built when the document-frequency pairs happen to be yielded
in first-seen order. -/
noncomputable def buildIndexFirstSeen (entries : List (String × Except String String)) :
    IndexM ℝ :=
  buildIndex entries (dfList (docsTokens (docsOf entries)))

/-- The shape invariants of a persisted index (spec section 3): one vector
per document, every vector of vocabulary length. -/
def shapeOK {α : Type} (idx : IndexM α) : Prop :=
  idx.vectors.length = idx.docs.length ∧ ∀ v ∈ idx.vectors, v.length = idx.terms.length

instance {α : Type} (idx : IndexM α) : Decidable (shapeOK idx) := by
  unfold shapeOK; infer_instance

/-- Boolean prefix test on character lists. -/
def startsWithL : List Char → List Char → Bool
  | _, [] => true
  | [], _ :: _ => false
  | c :: cs, p :: ps => c == p && startsWithL cs ps

/-- Boolean substring test on character lists: some suffix of the haystack
starts with the pattern. -/
def containsL : List Char → List Char → Bool
  | [], pat => pat.isEmpty
  | c :: hs, pat => startsWithL (c :: hs) pat || containsL hs pat

/-- Rust `str::contains` with a string pattern: substring containment. -/
def strContains (hay pat : String) : Bool :=
  containsL hay.toList pat.toList

/-- Rust `str::to_lowercase`; the queries handled here are segmented per
character, so the character-wise lowercase map is the faithful model. -/
def lowerStr (s : String) : String :=
  String.mk (s.toList.map Char.toLower)

/-- The query classifier `is_general_query` (src/main.rs line 269): the
lowercased query contains one of the four trigger words, or the tokenized
query has fewer than 3 tokens. -/
def is_general_query (q : String) : Bool :=
  strContains (lowerStr q) "summarize" || strContains (lowerStr q) "list" ||
    strContains (lowerStr q) "all" || strContains (lowerStr q) "documents" ||
    decide ((tokenize q).length < 3)

/-- The fixed trigger-word set of the classifier. -/
def triggerWords : List String :=
  ["summarize", "list", "all", "documents"]

/-- The query vector (src/main.rs lines 256-267): raw occurrence counts of
the query tokens over the loaded vocabulary, then the same floored L2
normalization as the document encoder. -/
noncomputable def qVec (terms : List String) (q : String) : List ℝ :=
  l2normalize ((List.range terms.length).map (fun i => (tfCount terms (tokenize q) i : ℝ)))

/-- The scored pairing `(document_index, score)` for all documents
(src/main.rs lines 275-280). -/
noncomputable def simsList (qvec : List ℝ) (vectors : List (List ℝ)) : List (ℕ × ℝ) :=
  vectors.enum.map (fun p => (p.1, cosine_sim qvec p.2))

/-- `sims.sort_by(|a, b| b.1.partial_cmp(&a.1).unwrap_or(Equal))`
(src/main.rs line 282): a stable descending sort on the score.  Over the
reals the comparator is the total descending order on the second
component, so the stable sort is the descending insertion sort. -/
noncomputable def rankDesc (sims : List (ℕ × ℝ)) : List (ℕ × ℝ) :=
  sortDescBy Prod.snd sims

/-- `selected_docs` (src/main.rs lines 270-284): a general query selects
every document index; a specific query takes the first `k` of the
descending-sorted scored pairs. -/
noncomputable def selected_docs (idx : IndexM ℝ) (q : String) (k : ℕ) : List ℕ :=
  if is_general_query q then List.range idx.docs.length
  else ((rankDesc (simsList (qVec idx.terms q) idx.vectors)).take k).map Prod.fst

/-- The document indices whose summaries enter the prompt context:
`selected_docs.iter().take(10)` (src/main.rs line 290). -/
noncomputable def context_docs (idx : IndexM ℝ) (q : String) (k : ℕ) : List ℕ :=
  (selected_docs idx q k).take 10

/-- The retrieval result of one query against a loaded index: the guard at
src/main.rs line 255 skips scoring entirely unless both the vocabulary and
the vector list are nonempty, in which case `selected_docs` is computed. -/
noncomputable def retrieve (idx : IndexM ℝ) (q : String) (k : ℕ) : List ℕ :=
  if !idx.terms.isEmpty && !idx.vectors.isEmpty then selected_docs idx q k else []

/-!  The persisted index format.  `serde_json::to_writer_pretty` at
src/main.rs line 189 writes the derived `Serialize` form of `Index`;
`serde_json::from_reader` at line 253 reads it back via the derived
`Deserialize`.  JSON numbers are decimal literals, modelled by rationals. -/

/-- A JSON value (the fragment used by the persisted index). -/
inductive Json where
  | str : String → Json
  | num : ℚ → Json
  | arr : List Json → Json
  | obj : List (String × Json) → Json

/-- Field lookup in a JSON object. -/
def getField (fields : List (String × Json)) (k : String) : Option Json :=
  (fields.find? (fun p => p.1 == k)).map Prod.snd

/-- Decoding a JSON string. -/
def decodeString : Json → Option String
  | Json.str s => some s
  | _ => none

/-- Decoding a JSON number. -/
def decodeNum : Json → Option ℚ
  | Json.num q => some q
  | _ => none

/-- The derived `Deserialize` of `Doc`: an object with the three string
fields; a missing or ill-typed field is an error. -/
def decodeDoc (j : Json) : Option Doc :=
  match j with
  | Json.obj fs => do
      let i ← (getField fs "id").bind decodeString
      let p ← (getField fs "path").bind decodeString
      let t ← (getField fs "text").bind decodeString
      pure { id := i, path := p, text := t }
  | _ => none

/-- Decoding one stored vector: an array of numbers. -/
def decodeVecQ : Json → Option (List ℚ)
  | Json.arr xs => xs.mapM decodeNum
  | _ => none

/-- The derived `Deserialize` of `Index` (src/main.rs lines 55-60, read at
line 253): the three fields are decoded element-wise.  No shape condition
relating the lengths of `docs`, `terms` and `vectors` is checked. -/
def decodeIndex (j : Json) : Option (IndexM ℚ) :=
  match j with
  | Json.obj fs => do
      let docsJ ← getField fs "docs"
      let docs ← match docsJ with
                 | Json.arr xs => xs.mapM decodeDoc
                 | _ => none
      let termsJ ← getField fs "terms"
      let terms ← match termsJ with
                  | Json.arr xs => xs.mapM decodeString
                  | _ => none
      let vecsJ ← getField fs "vectors"
      let vectors ← match vecsJ with
                    | Json.arr xs => xs.mapM decodeVecQ
                    | _ => none
      pure { docs := docs, terms := terms, vectors := vectors }
  | _ => none

/-- The derived `Serialize` of `Doc`. -/
def encodeDocJson (d : Doc) : Json :=
  Json.obj [("id", Json.str d.id), ("path", Json.str d.path), ("text", Json.str d.text)]

/-- The derived `Serialize` of `Index` (written at src/main.rs line 189). -/
def encodeIndex (idx : IndexM ℚ) : Json :=
  Json.obj
    [("docs", Json.arr (idx.docs.map encodeDocJson)),
     ("terms", Json.arr (idx.terms.map Json.str)),
     ("vectors", Json.arr (idx.vectors.map (fun v => Json.arr (v.map Json.num))))]

/-! ### Helper lemmas -/

theorem startsWithL_iff (p l : List Char) :
    startsWithL l p = true ↔ ∃ r, l = p ++ r := by
  induction p generalizing l with
  | nil =>
    cases l <;> simp [startsWithL]
  | cons c ps ih =>
    cases l with
    | nil => simp [startsWithL]
    | cons a as =>
      simp only [startsWithL, Bool.and_eq_true, beq_iff_eq, ih, List.cons_append,
        List.cons.injEq]
      constructor
      · rintro ⟨h1, r, h2⟩
        exact ⟨r, h1, h2⟩
      · rintro ⟨r, h1, h2⟩
        exact ⟨h1, r, h2⟩

theorem containsL_iff (l p : List Char) :
    containsL l p = true ↔ ∃ s t, l = s ++ p ++ t := by
  induction l with
  | nil =>
    simp only [containsL, List.isEmpty_iff]
    constructor
    · rintro rfl
      exact ⟨[], [], rfl⟩
    · rintro ⟨s, t, h⟩
      rcases List.append_eq_nil.mp h.symm with ⟨h1, h2⟩
      exact (List.append_eq_nil.mp h1).2
  | cons c hs ih =>
    simp only [containsL, Bool.or_eq_true, startsWithL_iff, ih]
    constructor
    · rintro (⟨r, hr⟩ | ⟨s, t, h⟩)
      · exact ⟨[], r, by simpa using hr⟩
      · exact ⟨c :: s, t, by simp [h]⟩
    · rintro ⟨s, t, h⟩
      cases s with
      | nil => exact Or.inl ⟨t, by simpa using h⟩
      | cons a s =>
        rcases List.cons.injEq .. ▸ h with ⟨rfl, h2⟩
        exact Or.inr ⟨s, t, h2⟩

theorem strContains_iff (hay pat : String) :
    strContains hay pat = true ↔ ∃ s t, hay.toList = s ++ pat.toList ++ t :=
  containsL_iff hay.toList pat.toList

theorem l2normalize_length (v : List ℝ) : (l2normalize v).length = v.length := by
  simp [l2normalize]

theorem rawVec_length (terms toks : List String) :
    (rawVec terms toks).length = terms.length := by
  simp [rawVec]

theorem encodeVec_length (terms toks : List String) :
    (encodeVec terms toks).length = terms.length := by
  simp [encodeVec, l2normalize_length, rawVec_length]

theorem term_index_foldl (terms : List String) (t : String) (l : List ℕ) (acc : Option ℕ) :
    l.foldl (fun acc i => if terms[i]? = some t then some i else acc) acc
      = (l.reverse.find? (fun i => decide (terms[i]? = some t))).elim acc some := by
  induction l generalizing acc with
  | nil => simp
  | cons i l ih =>
    simp only [List.foldl_cons, ih, List.reverse_cons, List.find?_append]
    by_cases h : terms[i]? = some t
    · cases hf : l.reverse.find? (fun i => decide (terms[i]? = some t)) <;>
        simp [h, hf, List.find?_cons, Option.or]
    · cases hf : l.reverse.find? (fun i => decide (terms[i]? = some t)) <;>
        simp [h, hf, List.find?_cons, Option.or]

theorem term_index_eq_find? (terms : List String) (t : String) :
    term_index terms t
      = (List.range terms.length).reverse.find? (fun i => decide (terms[i]? = some t)) := by
  rw [term_index, term_index_foldl]
  cases h : (List.range terms.length).reverse.find? (fun i => decide (terms[i]? = some t)) <;>
    simp [h]

theorem term_index_some (terms : List String) (t : String) (i : ℕ)
    (h : term_index terms t = some i) : terms[i]? = some t := by
  rw [term_index_eq_find?] at h
  simpa using List.find?_some h

theorem term_index_isSome_of_mem (terms : List String) (t : String) (h : t ∈ terms) :
    ∃ i, term_index terms t = some i := by
  rw [term_index_eq_find?]
  rcases List.mem_iff_getElem?.mp h with ⟨i, hi⟩
  have hlt : i < terms.length := (List.getElem?_eq_some.mp hi).1
  cases hf : (List.range terms.length).reverse.find? (fun i => decide (terms[i]? = some t)) with
  | some j => exact ⟨j, rfl⟩
  | none =>
    exfalso
    have := List.find?_eq_none.mp hf i (by simp [List.mem_reverse, List.mem_range, hlt])
    simp [hi] at this

theorem term_index_nodup (terms : List String) (hnd : terms.Nodup) (t : String) (i : ℕ) :
    term_index terms t = some i ↔ terms[i]? = some t := by
  constructor
  · exact term_index_some terms t i
  · intro h
    have hmem : t ∈ terms := List.getElem?_mem h
    rcases term_index_isSome_of_mem terms t hmem with ⟨j, hj⟩
    have hj' : terms[j]? = some t := term_index_some terms t j hj
    have hjlt : j < terms.length := (List.getElem?_eq_some.mp hj').1
    have : j = i := List.getElem?_inj hjlt hnd (hj'.trans h.symm)
    exact this ▸ hj

theorem tfCount_eq_countP (terms : List String) (toks : List String) (i : ℕ) :
    tfCount terms toks i = toks.countP (fun s => decide (term_index terms s = some i)) := by
  suffices h : ∀ (toks : List String) (m : ℕ → ℕ),
      (toks.foldl (fun m t => match term_index terms t with
        | some j => Function.update m j (m j + 1)
        | none => m) m) i = m i + toks.countP (fun s => decide (term_index terms s = some i)) by
    simpa [tfCount] using h toks (fun _ => 0)
  intro toks
  induction toks with
  | nil => intro m; simp
  | cons t ts ih =>
    intro m
    simp only [List.foldl_cons, List.countP_cons]
    cases h : term_index terms t with
    | none => simp [h, ih]
    | some j =>
      by_cases hji : j = i
      · subst hji
        simp [h, ih, Function.update_apply]
        omega
      · simp [h, ih, Function.update_apply, hji, Ne.symm hji]

theorem tfCount_eq_count (terms : List String) (hnd : terms.Nodup) (toks : List String)
    (i : ℕ) (hi : i < terms.length) :
    tfCount terms toks i = toks.count (terms.getD i "") := by
  rw [tfCount_eq_countP]
  have : toks.count (terms.getD i "") = toks.countP (fun s => s == terms.getD i "") := rfl
  rw [this]
  apply List.countP_congr
  intro s _
  simp only [decide_eq_true_eq, beq_iff_eq]
  rw [term_index_nodup terms hnd s i]
  rw [List.getD_eq_getElem terms "" hi]
  constructor
  · intro h
    exact (List.getElem?_eq_some.mp h).2.symm
  · intro h
    exact List.getElem?_eq_some.mpr ⟨hi, h.symm⟩


theorem sumSq_cons (x : ℝ) (v : List ℝ) : sumSq (x :: v) = x * x + sumSq v := by
  simp [sumSq]

theorem sumSq_nonneg (v : List ℝ) : 0 ≤ sumSq v := by
  apply List.sum_nonneg
  intro x hx
  rcases List.mem_map.mp hx with ⟨y, _, rfl⟩
  exact mul_self_nonneg y

theorem sq_le_sumSq (v : List ℝ) (x : ℝ) (hx : x ∈ v) : x * x ≤ sumSq v := by
  apply List.single_le_sum
  · intro y hy
    rcases List.mem_map.mp hy with ⟨z, _, rfl⟩
    exact mul_self_nonneg z
  · exact List.mem_map.mpr ⟨x, hx, rfl⟩

theorem sumSq_map_div (v : List ℝ) (c : ℝ) :
    sumSq (v.map (fun x => x / c)) = sumSq v / c ^ 2 := by
  induction v with
  | nil => simp [sumSq]
  | cons x xs ih =>
    rw [List.map_cons, sumSq_cons, sumSq_cons, ih, div_mul_div_comm, sq c,
      div_add_div_same]

theorem euclNorm_l2normalize (v : List ℝ) (h : 1 ≤ sumSq v) :
    euclNorm (l2normalize v) = 1 := by
  have h0 : (0:ℝ) ≤ sumSq v := le_trans zero_le_one h
  have hs : 1 ≤ Real.sqrt (sumSq v) := Real.one_le_sqrt.mpr h
  have hd : normDivisor v = Real.sqrt (sumSq v) := by
    rw [normDivisor, max_eq_left]
    linarith
  rw [euclNorm, l2normalize, hd, sumSq_map_div, Real.sq_sqrt h0,
    div_self (ne_of_gt (lt_of_lt_of_le zero_lt_one h))]
  exact Real.sqrt_one

theorem exists_pos_tfCount (terms toks : List String) (t : String)
    (ht : t ∈ toks) (htm : t ∈ terms) :
    ∃ i, i < terms.length ∧ 1 ≤ tfCount terms toks i := by
  rcases term_index_isSome_of_mem terms t htm with ⟨i, hi⟩
  have hlt : i < terms.length := (List.getElem?_eq_some.mp (term_index_some terms t i hi)).1
  refine ⟨i, hlt, ?_⟩
  rw [tfCount_eq_countP]
  have hpos : 0 < toks.countP (fun s => decide (term_index terms s = some i)) :=
    List.countP_pos_iff.mpr ⟨t, ht, by simp [hi]⟩
  omega

/-- C3: every index produced by one build has one vector per document, and
every vector has vocabulary length, whatever order the document-frequency
map yields its pairs in. -/
theorem claim_C3 (entries : List (String × Except String String))
    (dfOrder : List (String × ℕ)) :
    (buildIndex entries dfOrder).vectors.length = (buildIndex entries dfOrder).docs.length
    ∧ ∀ v ∈ (buildIndex entries dfOrder).vectors,
        v.length = (buildIndex entries dfOrder).terms.length := by
  constructor
  · simp [buildIndex, docsTokens]
  · intro v hv
    simp only [buildIndex] at hv ⊢
    rcases List.mem_map.mp hv with ⟨toks, _, rfl⟩
    exact encodeVec_length _ _

/-- C4: over a duplicate-free vocabulary, the encoder gives position `i` the
pre-normalization weight `1 + log2 c` when the in-document count `c` of the
`i`-th term is at least 1 and 0 when `c = 0` (no inverse-document-frequency
factor appears), and divides every component by the Euclidean norm of the
raw vector floored at `1e-9`. -/
theorem claim_C4 (terms toks : List String) (hnd : terms.Nodup) (i : ℕ)
    (hi : i < terms.length) :
    (encodeVec terms toks).getD i 0
      = (if toks.count (terms.getD i "") = 0 then 0
         else 1 + Real.logb 2 (toks.count (terms.getD i "")))
        / max (euclNorm (rawVec terms toks)) 1e-9 := by
  have hlen : i < (rawVec terms toks).length := by rw [rawVec_length]; exact hi
  rw [encodeVec, l2normalize, List.getD_eq_getElem?_getD, List.getElem?_map,
    List.getElem?_eq_getElem hlen]
  simp only [Option.map_some', Option.getD_some]
  have hdiv : normDivisor (rawVec terms toks) = max (euclNorm (rawVec terms toks)) 1e-9 := rfl
  rw [hdiv]
  congr 1
  simp only [rawVec, List.getElem_map, List.getElem_range]
  rw [tfCount_eq_count terms hnd toks i hi]

/-- C5: a document containing at least one vocabulary term encodes to a
vector of Euclidean norm 1 (within 1e-6); a document with no
vocabulary-matching term encodes to the all-zero vector. -/
theorem claim_C5 (terms toks : List String) :
    ((∃ t ∈ toks, t ∈ terms) → |euclNorm (encodeVec terms toks) - 1| ≤ 1e-6)
    ∧ ((∀ t ∈ toks, t ∉ terms) → encodeVec terms toks = List.replicate terms.length 0) := by
  constructor
  · rintro ⟨t, ht, htm⟩
    rcases exists_pos_tfCount terms toks t ht htm with ⟨i, hlt, hc⟩
    have hel : (1 + Real.logb 2 (tfCount terms toks i)) ∈ rawVec terms toks := by
      rw [rawVec]
      refine List.mem_map.mpr ⟨i, List.mem_range.mpr hlt, ?_⟩
      rw [if_neg (by omega)]
    have hone : (1:ℝ) ≤ 1 + Real.logb 2 (tfCount terms toks i) := by
      have hlog : (0:ℝ) ≤ Real.logb 2 (tfCount terms toks i) :=
        Real.logb_nonneg (by norm_num) (by exact_mod_cast hc)
      linarith
    have hsq : (1:ℝ) ≤ sumSq (rawVec terms toks) := by
      have h1 := sq_le_sumSq (rawVec terms toks) _ hel
      nlinarith
    rw [encodeVec, euclNorm_l2normalize _ hsq]
    norm_num
  · intro h
    have hz : ∀ i, tfCount terms toks i = 0 := by
      intro i
      rw [tfCount_eq_countP]
      apply List.countP_eq_zero.mpr
      intro s hs
      simp only [decide_eq_true_eq]
      intro hsome
      exact h s hs (List.getElem?_mem (term_index_some terms s i hsome))
    have hraw : rawVec terms toks = List.replicate terms.length 0 := by
      rw [rawVec]
      rw [List.map_congr_left (g := fun _ => (0:ℝ)) (fun a _ => by rw [hz a, if_pos rfl])]
      rw [List.map_const', List.length_range]
    rw [encodeVec, l2normalize, hraw, List.map_replicate, zero_div]

/-- C10: `cosine_sim` is a total function of its two list arguments and
equals the sum of pairwise products over the common prefix of the two
vectors (their first `min` positions), for vectors of any lengths. -/
theorem claim_C10 {α : Type} [NonUnitalNonAssocSemiring α] (a b : List α) :
    cosine_sim a b
      = ∑ i ∈ Finset.range (min a.length b.length), a.getD i 0 * b.getD i 0 := by
  induction a generalizing b with
  | nil => simp [cosine_sim]
  | cons x xs ih =>
    cases b with
    | nil => simp [cosine_sim]
    | cons y ys =>
      have hmin : min (xs.length + 1) (ys.length + 1) = min xs.length ys.length + 1 :=
        Nat.succ_min_succ xs.length ys.length
      rw [List.length_cons, List.length_cons, hmin, Finset.sum_range_succ']
      simp only [List.getD_cons_succ, List.getD_cons_zero]
      rw [← ih]
      simp only [cosine_sim, List.zip_cons_cons, List.map_cons, List.sum_cons]
      rw [add_comm]


theorem mapM_decodeNum (v : List ℚ) : (v.map Json.num).mapM decodeNum = some v := by
  induction v with
  | nil => rfl
  | cons x xs ih =>
    rw [List.map_cons, List.mapM_cons]
    simp only [ih, decodeNum]
    rfl

theorem decodeDoc_encodeDoc (d : Doc) : decodeDoc (encodeDocJson d) = some d := rfl

theorem mapM_decodeDoc (l : List Doc) : (l.map encodeDocJson).mapM decodeDoc = some l := by
  induction l with
  | nil => rfl
  | cons d ds ih =>
    rw [List.map_cons, List.mapM_cons]
    simp only [ih, decodeDoc_encodeDoc]
    rfl

theorem mapM_decodeString (l : List String) : (l.map Json.str).mapM decodeString = some l := by
  induction l with
  | nil => rfl
  | cons s ss ih =>
    rw [List.map_cons, List.mapM_cons]
    simp only [ih, decodeString]
    rfl

theorem mapM_decodeVecQ (l : List (List ℚ)) :
    (l.map (fun v => Json.arr (v.map Json.num))).mapM decodeVecQ = some l := by
  induction l with
  | nil => rfl
  | cons v vs ih =>
    rw [List.map_cons, List.mapM_cons]
    simp only [ih, decodeVecQ, mapM_decodeNum]
    rfl

theorem decodeIndex_encodeIndex (idx : IndexM ℚ) :
    decodeIndex (encodeIndex idx) = some idx := by
  have h : decodeIndex (encodeIndex idx)
      = ((idx.docs.map encodeDocJson).mapM decodeDoc).bind (fun docs =>
          ((idx.terms.map Json.str).mapM decodeString).bind (fun terms =>
            ((idx.vectors.map (fun v => Json.arr (v.map Json.num))).mapM decodeVecQ).bind
              (fun vectors => some ⟨docs, terms, vectors⟩))) := rfl
  rw [h, mapM_decodeDoc, mapM_decodeString, mapM_decodeVecQ]
  rfl

/-- C8: encoding an index to the persisted JSON format and decoding it back
yields the identical index: same documents, same vocabulary, and the same
stored weight values (JSON numbers are decimal literals, so the stored
values round-trip exactly). -/
theorem claim_C8 (idx : IndexM ℚ) : decodeIndex (encodeIndex idx) = some idx :=
  decodeIndex_encodeIndex idx

/-- A persisted index whose shape invariants fail: one vector but zero
documents. -/
def badIndexJson : Json :=
  Json.obj [("docs", Json.arr []), ("terms", Json.arr [Json.str "a"]),
            ("vectors", Json.arr [Json.arr [Json.num 1]])]

/-- C2 counterexample: a persisted index violating the shape invariants
(one vector, zero documents) is accepted by the loader rather than
surfaced as an error. -/
theorem claim_C2_counterexample :
    decodeIndex badIndexJson = some ⟨[], ["a"], [[1]]⟩
    ∧ ¬ shapeOK (⟨[], ["a"], [[1]]⟩ : IndexM ℚ) := by
  exact ⟨rfl, by decide⟩

/-- C2 amended: loading checks only the JSON structure and field types and
never the shape invariants; every index value, including one violating the
shape invariants, round-trips through the persisted format and is accepted
by the loader unchanged. -/
theorem claim_C2_amended (idx : IndexM ℚ) (_h : ¬ shapeOK idx) :
    decodeIndex (encodeIndex idx) = some idx :=
  decodeIndex_encodeIndex idx

/-- Witness for the amended C2 at a concrete shape-violating index. -/
theorem claim_C2_amended_witness :
    ¬ shapeOK (⟨[], ["b"], [[2]]⟩ : IndexM ℚ)
    ∧ decodeIndex (encodeIndex ⟨[], ["b"], [[2]]⟩) = some ⟨[], ["b"], [[2]]⟩ :=
  ⟨by decide, claim_C2_amended ⟨[], ["b"], [[2]]⟩ (by decide)⟩

/-- C7: querying an index with zero documents or an empty vocabulary (its
shape invariant relating document and vector counts assumed) selects no
documents at all: the retrieval result is empty and no lookup is ever
attempted, for every query string and every result bound. -/
theorem claim_C7 (idx : IndexM ℝ) (q : String) (k : ℕ)
    (hshape : idx.vectors.length = idx.docs.length)
    (h : idx.docs = [] ∨ idx.terms = []) :
    retrieve idx q k = [] := by
  rcases h with h | h
  · have hv : idx.vectors = [] := List.length_eq_zero.mp (by rw [hshape, h]; rfl)
    simp [retrieve, hv]
  · simp [retrieve, h]

/-- Witness for C7 at the empty index. -/
theorem claim_C7_witness :
    ((⟨[], [], []⟩ : IndexM ℝ).vectors.length = (⟨[], [], []⟩ : IndexM ℝ).docs.length)
    ∧ retrieve ⟨[], [], []⟩ "what is in the corpus" 3 = [] :=
  ⟨rfl, claim_C7 ⟨[], [], []⟩ "what is in the corpus" 3 rfl (Or.inl rfl)⟩

/-- C9: a file whose content extraction fails still yields a document in the
build, with an empty text body, and the build keeps one document per file. -/
theorem claim_C9 (entries : List (String × Except String String)) (i : ℕ)
    (entry : String × Except String String) (e : String)
    (hget : entries[i]? = some entry) (herr : entry.2 = Except.error e) :
    (docsOf entries).length = entries.length
    ∧ ∃ d, (docsOf entries)[i]? = some d ∧ d.text = "" := by
  refine ⟨by simp [docsOf], ⟨mkDoc entry, ?_, ?_⟩⟩
  · rw [docsOf, List.getElem?_map, hget]
    rfl
  · simp [mkDoc, herr]

/-- Witness for C9 at a one-file corpus whose extraction fails. -/
theorem claim_C9_witness :
    (([("f.pdf", (Except.error "PDF extraction failed" : Except String String))])[0]?
        = some ("f.pdf", Except.error "PDF extraction failed"))
    ∧ ((docsOf [("f.pdf", Except.error "PDF extraction failed")]).length = 1
        ∧ ∃ d, (docsOf [("f.pdf", Except.error "PDF extraction failed")])[0]? = some d
            ∧ d.text = "") :=
  ⟨rfl, claim_C9 [("f.pdf", Except.error "PDF extraction failed")] 0
    ("f.pdf", Except.error "PDF extraction failed") "PDF extraction failed" rfl rfl⟩

/-- C1: the document-frequency map for the two-file corpus with bodies "a"
and "b" holds the two pairs ("a", 1) and ("b", 1); both listed orders are
permutations of each other, i.e. both are possible `HashMap` iteration
orders, and the two resulting builds disagree on the vocabulary ordering.
The tie between the equal-frequency terms is therefore resolved by the
iteration order of the `HashMap`, which Rust randomizes per process, not by
a deterministic first-seen rule. -/
theorem claim_C1 :
    dfList (docsTokens (docsOf [("a.txt", Except.ok "a"), ("b.txt", Except.ok "b")]))
        = [("a", 1), ("b", 1)]
    ∧ ([("a", 1), ("b", 1)] : List (String × ℕ)).Perm [("b", 1), ("a", 1)]
    ∧ (buildIndex [("a.txt", Except.ok "a"), ("b.txt", Except.ok "b")]
        [("a", 1), ("b", 1)]).terms = ["a", "b"]
    ∧ (buildIndex [("a.txt", Except.ok "a"), ("b.txt", Except.ok "b")]
        [("b", 1), ("a", 1)]).terms = ["b", "a"]
    ∧ (["a", "b"] : List String) ≠ ["b", "a"] := by
  refine ⟨by decide, List.Perm.swap ("b", 1) ("a", 1) [], by decide, by decide, by decide⟩


theorem rankDesc_sorted (sims : List (ℕ × ℝ)) :
    (rankDesc sims).Sorted (fun a b => b.2 ≤ a.2) := by
  haveI : IsTotal (ℕ × ℝ) (fun a b => b.2 ≤ a.2) := ⟨fun a b => le_total b.2 a.2⟩
  haveI : IsTrans (ℕ × ℝ) (fun a b => b.2 ≤ a.2) := ⟨fun a b c hab hbc => le_trans hbc hab⟩
  exact List.sorted_insertionSort _ _

theorem rankDesc_perm (sims : List (ℕ × ℝ)) : (rankDesc sims).Perm sims :=
  List.perm_insertionSort _ _

theorem is_general_query_iff (q : String) :
    is_general_query q = true ↔
      ((∃ w ∈ triggerWords, ∃ s t, (lowerStr q).toList = s ++ w.toList ++ t)
        ∨ (tokenize q).length < 3) := by
  simp only [is_general_query, Bool.or_eq_true, decide_eq_true_eq, strContains_iff]
  constructor
  · rintro ((((h | h) | h) | h) | h)
    · exact Or.inl ⟨"summarize", by simp [triggerWords], h⟩
    · exact Or.inl ⟨"list", by simp [triggerWords], h⟩
    · exact Or.inl ⟨"all", by simp [triggerWords], h⟩
    · exact Or.inl ⟨"documents", by simp [triggerWords], h⟩
    · exact Or.inr h
  · rintro (⟨w, hw, h⟩ | h)
    · simp only [triggerWords, List.mem_cons, List.not_mem_nil, or_false] at hw
      rcases hw with rfl | rfl | rfl | rfl
      · exact Or.inl (Or.inl (Or.inl (Or.inl h)))
      · exact Or.inl (Or.inl (Or.inl (Or.inr h)))
      · exact Or.inl (Or.inl (Or.inr h))
      · exact Or.inl (Or.inr h)
    · exact Or.inr h

/-- C6: a query is classified general exactly when its lowercased text has
one of the four trigger words as a substring or it tokenizes to fewer than
3 tokens; a general query selects the whole document index range (with the
context assembly capped at the first 10), bypassing ranking; a specific
query selects the first `k` entries of the scored pairs sorted in
descending score order (a permutation of all scored pairs). -/
theorem claim_C6 (idx : IndexM ℝ) (q : String) (k : ℕ) :
    (is_general_query q = true ↔
      ((∃ w ∈ triggerWords, ∃ s t, (lowerStr q).toList = s ++ w.toList ++ t)
        ∨ (tokenize q).length < 3))
    ∧ (is_general_query q = true →
        selected_docs idx q k = List.range idx.docs.length
        ∧ context_docs idx q k = (List.range idx.docs.length).take 10)
    ∧ (is_general_query q = false →
        selected_docs idx q k
          = ((rankDesc (simsList (qVec idx.terms q) idx.vectors)).take k).map Prod.fst
        ∧ (rankDesc (simsList (qVec idx.terms q) idx.vectors)).Sorted (fun a b => b.2 ≤ a.2)
        ∧ (rankDesc (simsList (qVec idx.terms q) idx.vectors)).Perm
            (simsList (qVec idx.terms q) idx.vectors)) := by
  refine ⟨is_general_query_iff q, fun h => ?_, fun h => ?_⟩
  · exact ⟨by simp [selected_docs, h], by simp [context_docs, selected_docs, h]⟩
  · exact ⟨by simp [selected_docs, h], rankDesc_sorted _, rankDesc_perm _⟩

/-- Witness for C6 at a general and at a specific query over a concrete
index. -/
theorem claim_C6_witness :
    (selected_docs ⟨[], ["alpha"], [[1]]⟩ "summarize all documents" 3
        = List.range (⟨[], ["alpha"], [[1]]⟩ : IndexM ℝ).docs.length)
    ∧ (selected_docs ⟨[], ["alpha"], [[1]]⟩ "kubernetes deployment best practices" 3
        = ((rankDesc (simsList (qVec ["alpha"] "kubernetes deployment best practices")
            [[1]])).take 3).map Prod.fst) :=
  ⟨((claim_C6 ⟨[], ["alpha"], [[1]]⟩ "summarize all documents" 3).2.1 (by decide)).1,
   ((claim_C6 ⟨[], ["alpha"], [[1]]⟩ "kubernetes deployment best practices" 3).2.2
      (by decide)).1⟩


/-- Witness for C4 at a concrete duplicate-free vocabulary and document. -/
theorem claim_C4_witness :
    (["a", "b"] : List String).Nodup
    ∧ (0 < (["a", "b"] : List String).length)
    ∧ (encodeVec ["a", "b"] ["a", "a", "b"]).getD 0 0
        = (if ["a", "a", "b"].count ((["a", "b"] : List String).getD 0 "") = 0 then 0
           else 1 + Real.logb 2 (["a", "a", "b"].count ((["a", "b"] : List String).getD 0 "")))
          / max (euclNorm (rawVec ["a", "b"] ["a", "a", "b"])) 1e-9 :=
  ⟨by decide, by decide, claim_C4 ["a", "b"] ["a", "a", "b"] (by decide) 0 (by decide)⟩

/-- Witness for C5: one document containing a vocabulary term, one document
containing none. -/
theorem claim_C5_witness :
    ((∃ t ∈ (["alpha", "alpha"] : List String), t ∈ (["alpha"] : List String))
      ∧ |euclNorm (encodeVec ["alpha"] ["alpha", "alpha"]) - 1| ≤ 1e-6)
    ∧ ((∀ t ∈ (["beta"] : List String), t ∉ (["alpha"] : List String))
      ∧ encodeVec ["alpha"] ["beta"] = List.replicate (["alpha"] : List String).length 0) :=
  ⟨⟨by decide, (claim_C5 ["alpha"] ["alpha", "alpha"]).1 (by decide)⟩,
   ⟨by decide, (claim_C5 ["alpha"] ["beta"]).2 (by decide)⟩⟩

end VoltAI
